import Mathlib

/-!
Verification of the release-bundle promotion synchronization scripts
(`sync_rb_promotions.py`, `existingpromotions/sync_rb_promotions.py`,
`promote_release_bundle.py`).

Strings coming from the JSON payloads whose character structure matters
(repository identifiers, subject references) are modelled as `List Char`;
strings that are only ever compared for equality (environments, subject
types, statuses) are modelled as Lean `String`.
-/

/-- A raw character string, as manipulated character by character. -/
abbrev Str := List Char

/-- The `context` object of an audit event (`promo.get('context', {})`);
a missing context degrades to `none` / `[]` fields, exactly as chained
`.get` calls do in the scripts. -/
structure PromoContext where
  environment : Option String
  included_repository_keys : List Str
  excluded_repository_keys : List Str
deriving DecidableEq

/-- One raw audit event as returned by the audit query.  `created_millis`
is absent when the JSON record has no such key. -/
structure AuditEvent where
  subject_type : Option String
  event_status : Option String
  subject_reference : Option Str
  created_millis : Option Int
  context : PromoContext
deriving DecidableEq

/-- Characters stripped by Python's `str.strip()`. -/
def isSpaceChar (c : Char) : Bool :=
  c = ' ' || c = '\t' || c = '\n' || c = '\r' || c = '\u000B' || c = '\u000C'

/-- `str.strip()`: drop whitespace at both ends. -/
def trim (s : Str) : Str :=
  ((s.dropWhile isSpaceChar).reverse.dropWhile isSpaceChar).reverse

/-- Helper for `splitComma`: prepend a character to the first chunk. -/
def consHead (c : Char) : List Str → List Str
  | [] => [[c]]
  | chunk :: chunks => (c :: chunk) :: chunks

/-- Python `item.split(',')`: split a string at every comma, keeping
empty chunks (`"".split(',') == [""]`). -/
def splitComma : Str → List Str
  | [] => [[]]
  | c :: rest => if c = ',' then [] :: splitComma rest else consHead c (splitComma rest)

/-- `parse_repos_to_set` from `existingpromotions/sync_rb_promotions.py`
(and `promote_release_bundle.py`): an empty list maps to the empty
frozenset, otherwise every element is comma-split, each piece stripped,
and the results collected into a set. -/
def parse_repos_to_set (repo_list : List Str) : Finset Str :=
  if repo_list.isEmpty then ∅
  else ((repo_list.map (fun item => (splitComma item).map trim)).flatten).toFinset

/-- The comparison key of `get_promo_signature` in
`existingpromotions/sync_rb_promotions.py`. -/
abbrev Sig := Option String × Finset Str × Finset Str

/-- `get_promo_signature`: environment plus the two normalized repository
sets. -/
def get_promo_signature (p : AuditEvent) : Sig :=
  (p.context.environment,
   parse_repos_to_set p.context.included_repository_keys,
   parse_repos_to_set p.context.excluded_repository_keys)

/-- Multiplicity of a signature in a promotion list (what
`Counter(get_promo_signature(p) for p in l)[s]` returns). -/
def sigCount (s : Sig) (l : List AuditEvent) : Nat :=
  (l.filter (fun p => decide (get_promo_signature p = s))).length

/-- Python `Counter` keys in insertion order: the distinct signatures in
order of first occurrence. -/
def counterKeys : List Sig → List Sig
  | [] => []
  | s :: rest => s :: (counterKeys rest).filter (fun t => decide (t ≠ s))

/-- The inner selection loop of `existingpromotions` `main` (lines
194-198): scan `reversed(source_promotions)` for the first event whose
signature matches, append it `d` times, and `break`. -/
def selectForSig (src : List AuditEvent) (s : Sig) (d : Nat) : List AuditEvent :=
  match src.reverse.find? (fun p => decide (get_promo_signature p = s)) with
  | none => []
  | some p => List.replicate d p

/-- The reconciliation loop of `existingpromotions` `main` (lines
187-198): iterate the source `Counter` in insertion order and, for every
signature whose source count exceeds its target count, select the
deficit records. -/
def promotionsToSync (src tgt : List AuditEvent) : List AuditEvent :=
  ((counterKeys (src.map get_promo_signature)).map (fun s =>
    if sigCount s tgt < sigCount s src then selectForSig src s (sigCount s src - sigCount s tgt)
    else [])).flatten

/-- The per-version selection entry point of `existingpromotions` `main`:
the parsed `environmentfilter` argument is in scope but the selection
loop never consults it. -/
def promotionsToSyncEP (environment_filter : String) (src tgt : List AuditEvent) :
    List AuditEvent :=
  promotionsToSync src tgt

/-- The eligibility filter of `get_release_bundle_audit_history` (both
sweep variants, identical): `subject_type == "PROMOTION"` and
`event_status == "COMPLETED"`. -/
def isCompletedPromotion (e : AuditEvent) : Bool :=
  decide (e.subject_type = some "PROMOTION") && decide (e.event_status = some "COMPLETED")

/-- The sort key of `completed_promotions.sort(key=lambda x:
x.get('created_millis', 0))`: a missing timestamp counts as `0`. -/
def sortKey (e : AuditEvent) : Int :=
  e.created_millis.getD 0

/-- Insertion step of a stable sort by key: a new element goes after
every element whose key is less than or equal to its own. -/
def insertAfterEq {α : Type} (key : α → Int) (p : α) : List α → List α
  | [] => [p]
  | q :: rest => if key p < key q then p :: q :: rest else q :: insertAfterEq key p rest

/-- Stable sort by an integer key, modelling Python's `list.sort(key=...)`
(Timsort is stable; any stable sort by the same key produces the same
list). -/
def stableSortByKey {α : Type} (key : α → Int) (l : List α) : List α :=
  l.foldl (fun acc p => insertAfterEq key p acc) []

/-- `get_release_bundle_audit_history` applied to the decoded `audits`
array: keep completed promotions, then stably sort ascending by
`created_millis` with default `0`. -/
def get_release_bundle_audit_history (audits : List AuditEvent) : List AuditEvent :=
  stableSortByKey sortKey (audits.filter isCompletedPromotion)

/-- `event.get("subject_reference", "")` in `promote_release_bundle.py`. -/
def subjRef (e : AuditEvent) : Str :=
  e.subject_reference.getD []

/-- `.startswith("FED-")` on the subject reference. -/
def hasFedTag : Str → Bool
  | 'F' :: 'E' :: 'D' :: '-' :: _ => true
  | _ => false

/-- The eligibility test applied by both selection loops of
`promote_release_bundle.py` `main`: a promotion whose reference is not
`FED-` prefixed (no status check). -/
def isEligibleEventPromotion (e : AuditEvent) : Bool :=
  decide (e.subject_type = some "PROMOTION") && !hasFedTag (subjRef e)

/-- The audit records the event-triggered driver considers (the records
its `for event in audits` loops can select from). -/
def eligibleEvents (audits : List AuditEvent) : List AuditEvent :=
  audits.filter isEligibleEventPromotion

/-- The raw comparison key of the top-level `sync_rb_promotions.py`
presence check: environment plus the repository lists taken verbatim as
tuples. -/
def tupleSig (p : AuditEvent) : Option String × List Str × List Str :=
  (p.context.environment, p.context.included_repository_keys, p.context.excluded_repository_keys)

/-- The selection loop of the top-level `sync_rb_promotions.py` `main`
(lines 230-263): skip records without an environment, skip records not
matching a non-empty environment filter, and keep a record only when no
target record has the same raw tuple key. -/
def selectMissing (environment_filter : String) (src tgt : List AuditEvent) :
    List AuditEvent :=
  src.filter (fun p =>
    match p.context.environment with
    | none => false
    | some env =>
        if environment_filter ≠ "" ∧ env ≠ environment_filter then false
        else ! tgt.any (fun t => decide (tupleSig t = tupleSig p)))

/-- The replication loop of the top-level `sync_rb_promotions.py` over
one identity's replay list (lines 272-317): a record whose environment
is `None` (`if target_env_for_promo is None:`, line 278) is skipped with
an error message; otherwise the actuator runs and, success or failure,
the loop proceeds to the next record (`continue` on
`CalledProcessError`).  The result pairs each attempted record with its
actuation outcome. -/
def runReplays (actuate : AuditEvent → Bool) : List AuditEvent → List (AuditEvent × Bool)
  | [] => []
  | p :: rest =>
    match p.context.environment with
    | none => runReplays actuate rest
    | some _ => (p, actuate p) :: runReplays actuate rest

/-- The replication loop of `existingpromotions/sync_rb_promotions.py`
over one identity's replay list (lines 206-257): its guard
`if not target_env_for_promo:` (line 210) skips a record whose
environment is missing or the empty string; otherwise the actuator runs
and, success or failure, the loop proceeds to the next record
(`continue` on `CalledProcessError`). -/
def runReplaysEP (actuate : AuditEvent → Bool) : List AuditEvent → List (AuditEvent × Bool)
  | [] => []
  | p :: rest =>
    match p.context.environment with
    | none => runReplaysEP actuate rest
    | some env =>
      if env = "" then runReplaysEP actuate rest
      else (p, actuate p) :: runReplaysEP actuate rest

/-- Process exit status of the sweep scripts once the main loop has
finished: the scripts keep no failure flag and fall off `main`, so the
status is `0` however many actuations failed. -/
def sweepExitCode (failures : Nat) : Nat := 0

/-- A Python value in the positions where the scripts handle timestamps
defensively: `None`, an integer, or a string. -/
inductive PyVal where
  | pynone : PyVal
  | pyint : Int → PyVal
  | pystr : Str → PyVal
deriving DecidableEq

/-- Value of a decimal digit character. -/
def digitVal (c : Char) : Option Nat :=
  if '0' ≤ c ∧ c ≤ '9' then some (c.toNat - '0'.toNat) else none

/-- Parse an all-digit, non-empty string as a natural number. -/
def parseDigits (s : Str) : Option Nat :=
  if s.isEmpty then none
  else s.foldl (fun acc c => do
    let a ← acc
    let d ← digitVal c
    some (a * 10 + d)) (some 0)

/-- Python `int(x)` over the modelled values: succeeds on integers and
on (optionally negated) digit strings, raises otherwise. -/
def pyToInt : PyVal → Option Int
  | PyVal.pynone => none
  | PyVal.pyint n => some n
  | PyVal.pystr s =>
    match s with
    | '-' :: rest => (parseDigits rest).map (fun n => -(n : Int))
    | _ => (parseDigits s).map (fun n => (n : Int))

/-- The `updated_millis` computation of
`update_release_bundle_milliseconds` in `sync_rb_promotions.py` (and the
inline computation in `existingpromotions`): `int(x) + 1`, falling back
to the original value with a warning when the conversion raises. -/
def incrementedMillis (m : PyVal) : PyVal :=
  match pyToInt m with
  | some n => PyVal.pyint (n + 1)
  | none => m

/-- The guard of the top-level sweep `main` deciding whether the
timestamp-alignment request is issued at all: `original_promotion_millis
is not None and original_promotion_millis != "N/A"`. -/
def sweepAlignmentRequested (m : PyVal) : Bool :=
  decide (m ≠ PyVal.pynone) && decide (m ≠ PyVal.pystr ['N', '/', 'A'])

/-- Exit status of `promote_release_bundle.py` `main` after a successful
promotion, as a function of the alignment response: `sys.exit(1)` when
`update_release_bundle_milliseconds` returned `None`, normal termination
(status `0`) otherwise. -/
def eventAlignExit : Option Unit → Nat
  | none => 1
  | some _ => 0

/-- Observable outcome of one event-triggered run: its exit status and
how many audit-history fetches it performed. -/
structure EventRunResult where
  exitCode : Nat
  fetchCount : Nat
deriving DecidableEq

/-- The origin guard of `promote_release_bundle.py` `main` (lines
106-115): when the triggering origin differs from the configured primary
source the script exits `0` before issuing any request; otherwise the
remainder of the run (abstracted as `proceed`) happens. -/
def runEventDriver (jpd_origin primary_source_url : String)
    (proceed : EventRunResult) : EventRunResult :=
  if jpd_origin ≠ primary_source_url then ⟨0, 0⟩ else proceed

/-- A completed promotion to `DEV` at timestamp 1 with no repository
filters. -/
def eDev1 : AuditEvent :=
  ⟨some "PROMOTION", some "COMPLETED", none, some 1, ⟨some "DEV", [], []⟩⟩

/-- A completed promotion to `STG` at timestamp 2. -/
def eStg : AuditEvent :=
  ⟨some "PROMOTION", some "COMPLETED", none, some 2, ⟨some "STG", [], []⟩⟩

/-- A second completed promotion to `DEV`, at timestamp 3. -/
def eDev2 : AuditEvent :=
  ⟨some "PROMOTION", some "COMPLETED", none, some 3, ⟨some "DEV", [], []⟩⟩

/-- A target-side completed promotion to `DEV` at timestamp 5. -/
def tDevOld : AuditEvent :=
  ⟨some "PROMOTION", some "COMPLETED", none, some 5, ⟨some "DEV", [], []⟩⟩

/-- A completed promotion to `PROD` at timestamp 4. -/
def eProd : AuditEvent :=
  ⟨some "PROMOTION", some "COMPLETED", none, some 4, ⟨some "PROD", [], []⟩⟩

/-- A source record whose include filter is the comma-joined
`["repo-a,repo-b"]` shape (modelled as `["a,b"]`). -/
def recCommaJoined : AuditEvent :=
  ⟨some "PROMOTION", some "COMPLETED", none, some 1,
   ⟨some "QA", [['a', ',', 'b']], []⟩⟩

/-- A target record equivalent to `recCommaJoined` but with the split
`["a","b"]` shape. -/
def recSplit : AuditEvent :=
  ⟨some "PROMOTION", some "COMPLETED", none, some 7,
   ⟨some "QA", [['a'], ['b']], []⟩⟩

/-- A completed promotion audit event tagged as a federated mirror
(`FED-` prefixed subject reference). -/
def fedEvent : AuditEvent :=
  ⟨some "PROMOTION", some "COMPLETED", some ['F', 'E', 'D', '-', '1'], some 1,
   ⟨some "DEV", [], []⟩⟩

/-- An audit event lacking the `created_millis` field. -/
def eNoTs : AuditEvent :=
  ⟨some "PROMOTION", some "COMPLETED", none, none, ⟨some "UAT", [], []⟩⟩

section SortLemmas

variable {α : Type} (key : α → Int)

theorem mem_insertAfterEq (p x : α) (l : List α) :
    x ∈ insertAfterEq key p l ↔ x = p ∨ x ∈ l := by
  induction l with
  | nil => simp [insertAfterEq]
  | cons q rest ih =>
    by_cases h : key p < key q
    · simp [insertAfterEq, h]
    · simp only [insertAfterEq, if_neg h, List.mem_cons, ih]
      tauto

theorem pairwise_insertAfterEq (p : α) (l : List α)
    (hl : List.Pairwise (fun a b => key a ≤ key b) l) :
    List.Pairwise (fun a b => key a ≤ key b) (insertAfterEq key p l) := by
  induction l with
  | nil => simp [insertAfterEq]
  | cons q rest ih =>
    rcases List.pairwise_cons.mp hl with ⟨hq, hrest⟩
    by_cases h : key p < key q
    · rw [insertAfterEq, if_pos h]
      refine List.pairwise_cons.mpr ⟨?_, hl⟩
      intro x hx
      rcases List.mem_cons.mp hx with rfl | hx
      · exact le_of_lt h
      · exact le_trans (le_of_lt h) (hq x hx)
    · rw [insertAfterEq, if_neg h]
      refine List.pairwise_cons.mpr ⟨?_, ih hrest⟩
      intro x hx
      rcases (mem_insertAfterEq key p x rest).mp hx with rfl | hx
      · exact le_of_not_lt h
      · exact hq x hx

theorem filter_insertAfterEq (k : Int) (p : α) (l : List α)
    (hl : List.Pairwise (fun a b => key a ≤ key b) l) :
    (insertAfterEq key p l).filter (fun x => decide (key x = k)) =
      l.filter (fun x => decide (key x = k)) ++ (if key p = k then [p] else []) := by
  induction l with
  | nil =>
    by_cases hp : key p = k <;> simp [insertAfterEq, hp]
  | cons q rest ih =>
    rcases List.pairwise_cons.mp hl with ⟨hq, hrest⟩
    by_cases h : key p < key q
    · rw [insertAfterEq, if_pos h]
      by_cases hp : key p = k
      · have hrestk : (q :: rest).filter (fun x => decide (key x = k)) = [] := by
          rw [List.filter_eq_nil_iff]
          intro x hx
          have hqx : key q ≤ key x := by
            rcases List.mem_cons.mp hx with rfl | hx
            · exact le_refl _
            · exact hq x hx
          have hkx : k < key x := lt_of_lt_of_le (hp ▸ h) hqx
          simp [ne_of_gt hkx]
        rw [List.filter_cons, hrestk]
        simp [hp]
      · rw [List.filter_cons]
        simp [hp]
    · rw [insertAfterEq, if_neg h, List.filter_cons, List.filter_cons, ih hrest]
      by_cases hqk : key q = k
      · simp [hqk]
      · simp [hqk]

theorem mem_sortFold (l : List α) :
    ∀ (acc : List α) (x : α),
      x ∈ l.foldl (fun a p => insertAfterEq key p a) acc ↔ x ∈ acc ∨ x ∈ l := by
  induction l with
  | nil => simp
  | cons p rest ih =>
    intro acc x
    rw [List.foldl_cons, ih]
    rw [mem_insertAfterEq]
    simp only [List.mem_cons]
    tauto

theorem pairwise_sortFold (l : List α) :
    ∀ acc : List α, List.Pairwise (fun a b => key a ≤ key b) acc →
      List.Pairwise (fun a b => key a ≤ key b)
        (l.foldl (fun a p => insertAfterEq key p a) acc) := by
  induction l with
  | nil => intro acc hacc; simpa using hacc
  | cons p rest ih =>
    intro acc hacc
    rw [List.foldl_cons]
    exact ih _ (pairwise_insertAfterEq key p acc hacc)

theorem filter_sortFold (k : Int) (l : List α) :
    ∀ acc : List α, List.Pairwise (fun a b => key a ≤ key b) acc →
      (l.foldl (fun a p => insertAfterEq key p a) acc).filter (fun x => decide (key x = k)) =
        acc.filter (fun x => decide (key x = k)) ++ l.filter (fun x => decide (key x = k)) := by
  induction l with
  | nil => intro acc _; simp
  | cons p rest ih =>
    intro acc hacc
    rw [List.foldl_cons, ih _ (pairwise_insertAfterEq key p acc hacc),
      filter_insertAfterEq key k p acc hacc, List.filter_cons]
    by_cases hp : key p = k
    · simp [hp]
    · simp [hp]

theorem mem_stableSortByKey (l : List α) (x : α) :
    x ∈ stableSortByKey key l ↔ x ∈ l := by
  rw [stableSortByKey, mem_sortFold]
  simp

theorem pairwise_stableSortByKey (l : List α) :
    List.Pairwise (fun a b => key a ≤ key b) (stableSortByKey key l) :=
  pairwise_sortFold key l [] List.Pairwise.nil

theorem filter_stableSortByKey (k : Int) (l : List α) :
    (stableSortByKey key l).filter (fun x => decide (key x = k)) =
      l.filter (fun x => decide (key x = k)) := by
  rw [stableSortByKey, filter_sortFold key k l [] List.Pairwise.nil]
  simp

end SortLemmas

section CounterLemmas

theorem mem_counterKeys (s : Sig) (l : List Sig) : s ∈ counterKeys l ↔ s ∈ l := by
  induction l with
  | nil => simp [counterKeys]
  | cons t rest ih =>
    rw [counterKeys]
    by_cases h : s = t
    · subst h; simp
    · simp only [List.mem_cons, List.mem_filter, ih, decide_eq_true_iff]
      constructor
      · rintro (rfl | ⟨hs, _⟩)
        · exact Or.inl rfl
        · exact Or.inr hs
      · rintro (rfl | hs)
        · exact Or.inl rfl
        · exact Or.inr ⟨hs, h⟩

theorem nodup_counterKeys (l : List Sig) : (counterKeys l).Nodup := by
  induction l with
  | nil => simp [counterKeys]
  | cons t rest ih =>
    rw [counterKeys]
    refine List.nodup_cons.mpr ⟨?_, ih.filter _⟩
    intro ht
    have := (List.mem_filter.mp ht).2
    simp at this

theorem counterKeys_of_nodup (l : List Sig) (h : l.Nodup) : counterKeys l = l := by
  induction l with
  | nil => rfl
  | cons t rest ih =>
    rcases List.nodup_cons.mp h with ⟨ht, hrest⟩
    rw [counterKeys, ih hrest, List.filter_eq_self.mpr]
    intro x hx
    simp only [decide_eq_true_iff]
    intro hxt
    exact ht (hxt ▸ hx)

end CounterLemmas

section ReconcilerLemmas

theorem sigCount_append (s : Sig) (l1 l2 : List AuditEvent) :
    sigCount s (l1 ++ l2) = sigCount s l1 + sigCount s l2 := by
  simp [sigCount, List.filter_append]

theorem sigCount_eq_zero_of_not_mem (s : Sig) (l : List AuditEvent)
    (h : s ∉ l.map get_promo_signature) : sigCount s l = 0 := by
  rw [sigCount, List.length_eq_zero, List.filter_eq_nil_iff]
  intro p hp
  simp only [decide_eq_true_iff]
  intro hps
  exact h (List.mem_map.mpr ⟨p, hp, hps⟩)

theorem selectForSig_sig (src : List AuditEvent) (s : Sig) (d : Nat) :
    ∀ p ∈ selectForSig src s d, get_promo_signature p = s := by
  intro p hp
  rw [selectForSig] at hp
  rcases hfind : src.reverse.find? (fun p => decide (get_promo_signature p = s)) with _ | q
  · rw [hfind] at hp; simp at hp
  · rw [hfind] at hp
    have hq := List.find?_some hfind
    simp only [decide_eq_true_iff] at hq
    rw [List.eq_of_mem_replicate hp]
    exact hq

theorem selectForSig_length (src : List AuditEvent) (s : Sig) (d : Nat)
    (h : s ∈ src.map get_promo_signature) :
    (selectForSig src s d).length = d := by
  rcases List.mem_map.mp h with ⟨p, hp, hps⟩
  have hmem : p ∈ src.reverse := List.mem_reverse.mpr hp
  have hsome : (src.reverse.find? (fun p => decide (get_promo_signature p = s))).isSome := by
    rw [List.find?_isSome]
    exact ⟨p, hmem, by simp [hps]⟩
  rcases hfind : src.reverse.find? (fun p => decide (get_promo_signature p = s)) with _ | q
  · rw [hfind] at hsome; simp at hsome
  · rw [selectForSig, hfind, List.length_replicate]

theorem sigCount_flatten_groups (s : Sig) (keys : List Sig)
    (g : Sig → List AuditEvent)
    (hg : ∀ t, ∀ p ∈ g t, get_promo_signature p = t)
    (hnd : keys.Nodup) :
    sigCount s ((keys.map g).flatten) = if s ∈ keys then (g s).length else 0 := by
  induction keys with
  | nil => simp [sigCount]
  | cons t rest ih =>
    rcases List.nodup_cons.mp hnd with ⟨ht, hrest⟩
    rw [List.map_cons, List.flatten_cons, sigCount_append, ih hrest]
    by_cases hts : t = s
    · subst hts
      have h1 : sigCount t (g t) = (g t).length := by
        rw [sigCount, List.filter_eq_self.mpr]
        intro p hp
        simp [hg t p hp]
      rw [h1, if_neg ht, if_pos (List.mem_cons_self t rest)]
      omega
    · have h0 : sigCount s (g t) = 0 := by
        rw [sigCount, List.length_eq_zero, List.filter_eq_nil_iff]
        intro p hp
        simp only [decide_eq_true_iff]
        intro hps
        exact hts (hps ▸ (hg t p hp)).symm
      rw [h0, Nat.zero_add]
      by_cases hs : s ∈ rest
      · simp [hs, List.mem_cons.mpr (Or.inr hs)]
      · have : s ∉ t :: rest := by
          intro hc
          rcases List.mem_cons.mp hc with rfl | hc
          · exact hts rfl
          · exact hs hc
        simp [hs, this]

theorem sigCount_promotionsToSync (src tgt : List AuditEvent) (s : Sig) :
    sigCount s (promotionsToSync src tgt) = sigCount s src - sigCount s tgt := by
  rw [promotionsToSync]
  rw [sigCount_flatten_groups s _ _ ?hg (nodup_counterKeys _)]
  case hg =>
    intro t p hp
    split_ifs at hp with hcond
    · exact selectForSig_sig src t _ p hp
    · simp at hp
  by_cases hmem : s ∈ src.map get_promo_signature
  · rw [if_pos ((mem_counterKeys s _).mpr hmem)]
    by_cases hc : sigCount s tgt < sigCount s src
    · rw [if_pos hc, selectForSig_length src s _ hmem]
    · rw [if_neg hc]
      simp only [List.length_nil]
      omega
  · rw [if_neg (fun hc => hmem ((mem_counterKeys s _).mp hc))]
    rw [sigCount_eq_zero_of_not_mem s src hmem]
    omega

end ReconcilerLemmas

section SelectionLemmas

theorem filter_unique_of_nodup_sigs (src : List AuditEvent)
    (h : (src.map get_promo_signature).Nodup) (p : AuditEvent) (hp : p ∈ src) :
    src.filter (fun q => decide (get_promo_signature q = get_promo_signature p)) = [p] := by
  induction src with
  | nil => simp at hp
  | cons a rest ih =>
    rw [List.map_cons, List.nodup_cons] at h
    rcases h with ⟨ha, hrest⟩
    rcases List.mem_cons.mp hp with rfl | hp
    · rw [List.filter_cons, if_pos (by simp)]
      congr 1
      rw [List.filter_eq_nil_iff]
      intro q hq
      simp only [decide_eq_true_iff]
      intro hqp
      exact ha (hqp ▸ List.mem_map.mpr ⟨q, hq, rfl⟩)
    · rw [List.filter_cons]
      have hne : ¬ get_promo_signature a = get_promo_signature p := by
        intro hc
        exact ha (hc ▸ List.mem_map.mpr ⟨p, hp, rfl⟩)
      simp only [decide_eq_true_iff]
      rw [if_neg hne]
      exact ih hrest hp

theorem find?_of_filter_singleton {α : Type} (pred : α → Bool) (l : List α) (p : α)
    (h : l.filter pred = [p]) : l.find? pred = some p := by
  induction l with
  | nil => simp at h
  | cons a rest ih =>
    rw [List.filter_cons] at h
    by_cases ha : pred a
    · rw [if_pos ha] at h
      rcases List.cons_eq_cons.mp h with ⟨rfl, hrest⟩
      rw [List.find?_cons_of_pos _ ha]
    · rw [if_neg ha] at h
      rw [List.find?_cons_of_neg _ ha]
      exact ih h

theorem find?_reverse_of_unique_sig (src : List AuditEvent)
    (h : (src.map get_promo_signature).Nodup) (p : AuditEvent) (hp : p ∈ src) :
    src.reverse.find? (fun q => decide (get_promo_signature q = get_promo_signature p)) =
      some p := by
  apply find?_of_filter_singleton
  rw [List.filter_reverse, filter_unique_of_nodup_sigs src h p hp]
  rfl

theorem sigCount_eq_one_of_nodup_sigs (src : List AuditEvent)
    (h : (src.map get_promo_signature).Nodup) (p : AuditEvent) (hp : p ∈ src) :
    sigCount (get_promo_signature p) src = 1 := by
  rw [sigCount, filter_unique_of_nodup_sigs src h p hp, List.length_cons, List.length_nil]

theorem flatten_map_ite_eq_filter {α : Type} (pred : α → Bool) (l : List α) :
    (l.map (fun p => if pred p then [p] else [])).flatten = l.filter pred := by
  induction l with
  | nil => rfl
  | cons a rest ih =>
    rw [List.map_cons, List.flatten_cons, List.filter_cons, ih]
    by_cases ha : pred a
    · simp [ha]
    · simp [ha]

theorem promotionsToSync_of_nodup_sigs (src tgt : List AuditEvent)
    (h : (src.map get_promo_signature).Nodup) :
    promotionsToSync src tgt =
      src.filter (fun p => decide (sigCount (get_promo_signature p) tgt = 0)) := by
  rw [promotionsToSync, counterKeys_of_nodup _ h, List.map_map]
  rw [← flatten_map_ite_eq_filter]
  congr 1
  apply List.map_congr_left
  intro p hp
  simp only [Function.comp_apply]
  rw [sigCount_eq_one_of_nodup_sigs src h p hp]
  by_cases hc : sigCount (get_promo_signature p) tgt = 0
  · rw [if_pos (show sigCount (get_promo_signature p) tgt < 1 by omega),
      if_pos (show decide (sigCount (get_promo_signature p) tgt = 0) = true by simp [hc])]
    rw [hc, selectForSig, find?_reverse_of_unique_sig src h p hp]
    rfl
  · rw [if_neg (show ¬ sigCount (get_promo_signature p) tgt < 1 by omega),
      if_neg (show ¬ decide (sigCount (get_promo_signature p) tgt = 0) = true by simp [hc])]

theorem find?_reverse_split {α : Type} (pred : α → Bool) (l : List α) (p : α)
    (h : l.reverse.find? pred = some p) :
    ∃ l1 l2, l = l1 ++ p :: l2 ∧ ∀ q ∈ l2, pred q = false := by
  induction l using List.reverseRecOn with
  | nil => simp at h
  | append_singleton front a ih =>
    rw [List.reverse_append, List.reverse_cons, List.reverse_nil, List.nil_append,
      List.singleton_append] at h
    by_cases ha : pred a
    · rw [List.find?_cons_of_pos _ ha, Option.some_inj] at h
      subst h
      exact ⟨front, [], rfl, by simp⟩
    · rw [List.find?_cons_of_neg _ ha] at h
      rcases ih h with ⟨l1, l2, rfl, hl2⟩
      refine ⟨l1, l2 ++ [a], by simp, ?_⟩
      intro q hq
      rcases List.mem_append.mp hq with hq | hq
      · exact hl2 q hq
      · rw [List.mem_singleton.mp hq]
        exact Bool.not_eq_true _ ▸ (by simpa using ha)

theorem filter_flatten_map {α β : Type} (pred : β → Bool) (keys : List α)
    (g : α → List β) :
    ((keys.map g).flatten).filter pred = (keys.map (fun t => (g t).filter pred)).flatten := by
  induction keys with
  | nil => rfl
  | cons t rest ih =>
    rw [List.map_cons, List.flatten_cons, List.filter_append, ih, List.map_cons,
      List.flatten_cons]

theorem flatten_map_single {α β : Type} [DecidableEq α] (keys : List α) (s : α)
    (g : α → List β) (hnd : keys.Nodup) (hs : s ∈ keys)
    (hz : ∀ t ∈ keys, t ≠ s → g t = []) :
    (keys.map g).flatten = g s := by
  induction keys with
  | nil => simp at hs
  | cons t rest ih =>
    rcases List.nodup_cons.mp hnd with ⟨ht, hrest⟩
    rw [List.map_cons, List.flatten_cons]
    rcases List.mem_cons.mp hs with rfl | hs
    · have hrest0 : (rest.map g).flatten = [] := by
        rw [List.flatten_eq_nil_iff]
        intro l hl
        rcases List.mem_map.mp hl with ⟨u, hu, rfl⟩
        exact hz u (List.mem_cons_of_mem _ hu) (fun hc => ht (hc ▸ hu))
      rw [hrest0, List.append_nil]
    · have hts : t ≠ s := fun hc => ht (hc ▸ hs)
      rw [hz t (List.mem_cons_self _ _) hts, List.nil_append]
      exact ih hrest hs (fun u hu => hz u (List.mem_cons_of_mem _ hu))

end SelectionLemmas

section ParseLemmas

theorem trim_eq_rdropWhile (s : Str) :
    trim s = List.rdropWhile isSpaceChar (s.dropWhile isSpaceChar) := rfl

theorem mem_trim (s : Str) (x : Char) (h : x ∈ trim s) : x ∈ s := by
  rw [trim_eq_rdropWhile] at h
  have h1 : x ∈ s.dropWhile isSpaceChar :=
    (List.rdropWhile_prefix isSpaceChar _).sublist.subset h
  exact (List.dropWhile_sublist isSpaceChar).subset h1

theorem trim_trim (s : Str) : trim (trim s) = trim s := by
  set u := s.dropWhile isSpaceChar with hu_def
  have hu : u.dropWhile isSpaceChar = u := by
    rw [hu_def]
    exact List.dropWhile_idempotent _ _
  set v := List.rdropWhile isSpaceChar u with hv_def
  have hdv : v.dropWhile isSpaceChar = v := by
    rcases hv : v with _ | ⟨hv0, tv⟩
    · rfl
    · obtain ⟨t, ht⟩ := List.rdropWhile_prefix isSpaceChar u
      rw [← hv_def, hv] at ht
      have hws : isSpaceChar hv0 = false := by
        by_contra hws
        rw [Bool.not_eq_false] at hws
        rw [← ht, List.cons_append, List.dropWhile_cons_of_pos hws] at hu
        have hlen := congrArg List.length hu
        have hle : ((tv ++ t).dropWhile isSpaceChar).length ≤ (tv ++ t).length :=
          (List.dropWhile_sublist isSpaceChar).length_le
        simp only [List.length_cons] at hlen
        omega
      rw [List.dropWhile_cons_of_neg (by simp [hws])]
  calc trim (trim s)
      = List.rdropWhile isSpaceChar ((trim s).dropWhile isSpaceChar) := rfl
    _ = List.rdropWhile isSpaceChar v := by rw [show trim s = v from rfl, hdv]
    _ = v := by rw [hv_def]; exact List.rdropWhile_idempotent _ _
    _ = trim s := rfl

theorem splitComma_ne_nil (s : Str) : splitComma s ≠ [] := by
  induction s with
  | nil => simp [splitComma]
  | cons c rest ih =>
    rw [splitComma]
    by_cases hc : c = ','
    · simp [hc]
    · rw [if_neg hc]
      rcases h : splitComma rest with _ | ⟨chunk, chunks⟩
      · simp [consHead]
      · simp [consHead]

theorem not_comma_mem_splitComma (s : Str) : ∀ seg ∈ splitComma s, ',' ∉ seg := by
  induction s with
  | nil =>
    intro seg hseg
    rw [splitComma, List.mem_singleton] at hseg
    subst hseg
    simp
  | cons c rest ih =>
    intro seg hseg
    rw [splitComma] at hseg
    by_cases hc : c = ','
    · rw [if_pos hc, List.mem_cons] at hseg
      rcases hseg with rfl | hseg
      · simp
      · exact ih seg hseg
    · rw [if_neg hc] at hseg
      rcases h : splitComma rest with _ | ⟨chunk, chunks⟩
      · exact absurd h (splitComma_ne_nil rest)
      · rw [h, consHead, List.mem_cons] at hseg
        rcases hseg with rfl | hseg
        · intro hmem
          rcases List.mem_cons.mp hmem with hcc | hmem
          · exact hc hcc.symm
          · exact ih chunk (h ▸ List.mem_cons_self _ _) hmem
        · exact ih seg (h ▸ List.mem_cons_of_mem _ hseg)

theorem splitComma_of_no_comma (s : Str) (h : ',' ∉ s) : splitComma s = [s] := by
  induction s with
  | nil => rfl
  | cons c rest ih =>
    have hc : ¬ c = ',' := fun hc => h (hc ▸ List.mem_cons_self _ _)
    have hrest : ',' ∉ rest := fun hm => h (List.mem_cons_of_mem _ hm)
    rw [splitComma, if_neg hc, ih hrest, consHead]

theorem mem_parse_repos (l : List Str) (x : Str) :
    x ∈ parse_repos_to_set l ↔ ∃ item ∈ l, ∃ seg ∈ splitComma item, trim seg = x := by
  rw [parse_repos_to_set]
  by_cases hl : l.isEmpty
  · rw [if_pos hl]
    rw [List.isEmpty_iff] at hl
    subst hl
    simp
  · rw [if_neg hl, List.mem_toFinset, List.mem_flatten]
    constructor
    · rintro ⟨ll, hll, hx⟩
      rcases List.mem_map.mp hll with ⟨item, hitem, rfl⟩
      rcases List.mem_map.mp hx with ⟨seg, hseg, rfl⟩
      exact ⟨item, hitem, seg, hseg, rfl⟩
    · rintro ⟨item, hitem, seg, hseg, rfl⟩
      exact ⟨(splitComma item).map trim, List.mem_map.mpr ⟨item, hitem, rfl⟩,
        List.mem_map.mpr ⟨seg, hseg, rfl⟩⟩

theorem parse_out_no_comma (l : List Str) (x : Str) (h : x ∈ parse_repos_to_set l) :
    ',' ∉ x := by
  rcases (mem_parse_repos l x).mp h with ⟨item, _, seg, hseg, rfl⟩
  intro hc
  exact not_comma_mem_splitComma item seg hseg (mem_trim seg ',' hc)

theorem parse_out_trimmed (l : List Str) (x : Str) (h : x ∈ parse_repos_to_set l) :
    trim x = x := by
  rcases (mem_parse_repos l x).mp h with ⟨item, _, seg, _, rfl⟩
  exact trim_trim seg

theorem mem_parse_of_normalized (l : List Str)
    (hcomma : ∀ item ∈ l, ',' ∉ item) (htrim : ∀ item ∈ l, trim item = item) (x : Str) :
    x ∈ parse_repos_to_set l ↔ x ∈ l := by
  rw [mem_parse_repos]
  constructor
  · rintro ⟨item, hitem, seg, hseg, rfl⟩
    rw [splitComma_of_no_comma item (hcomma item hitem), List.mem_singleton] at hseg
    rw [hseg, htrim item hitem]
    exact hitem
  · intro hx
    refine ⟨x, hx, x, ?_, htrim x hx⟩
    rw [splitComma_of_no_comma x (hcomma x hx)]
    exact List.mem_singleton.mpr rfl

end ParseLemmas

theorem filter_replicate_pos {α : Type} (pred : α → Bool) (n : Nat) (a : α)
    (h : pred a = true) :
    (List.replicate n a).filter pred = List.replicate n a := by
  rw [List.filter_eq_self]
  intro b hb
  rw [List.eq_of_mem_replicate hb]
  exact h

/-- C1: for every source/target pair and every signature, the reconciler
selects exactly `max(0, sourceCount - targetCount)` records bearing that
signature (so zero-deficit signatures contribute nothing), and appending
the selection to the target brings the target's count up to at least the
source's count. -/
theorem C1_reconciler_deficit (src tgt : List AuditEvent) (s : Sig) :
    ((sigCount s (promotionsToSync src tgt) : Int) =
      max 0 ((sigCount s src : Int) - (sigCount s tgt : Int))) ∧
    sigCount s src ≤ sigCount s (tgt ++ promotionsToSync src tgt) := by
  have h := sigCount_promotionsToSync src tgt s
  constructor
  · rw [h]
    rcases Nat.le_total (sigCount s tgt) (sigCount s src) with hle | hle
    · rw [Nat.cast_sub hle, max_eq_right (by omega)]
    · rw [Nat.sub_eq_zero_of_le hle, max_eq_left (by omega)]
      rfl
  · rw [sigCount_append, h]
    omega

/-- C2: signature normalization is idempotent (re-normalizing any
enumeration of a normalized set is a no-op), order-independent
(permutation-invariant), strips whitespace, collapses duplicates, treats
`["a,b"]` and `["a","b"]` identically, and two records differing only in
that representation yield deficit 0. -/
theorem C2_signature_normalization :
    (∀ x enum : List Str, (∀ s : Str, s ∈ enum ↔ s ∈ parse_repos_to_set x) →
      parse_repos_to_set enum = parse_repos_to_set x) ∧
    (∀ x y : List Str, x.Perm y → parse_repos_to_set x = parse_repos_to_set y) ∧
    (∀ x : List Str, ∀ s ∈ parse_repos_to_set x, trim s = s) ∧
    parse_repos_to_set [['a', ',', 'b']] = parse_repos_to_set [['a'], ['b']] ∧
    parse_repos_to_set [[' ', 'a'], ['a', ' ']] = {['a']} ∧
    promotionsToSync [recCommaJoined] [recSplit] = [] := by
  refine ⟨?_, ?_, ?_, by decide, by decide, by decide⟩
  · intro x enum henum
    apply Finset.ext
    intro y
    have hcomma : ∀ item ∈ enum, ',' ∉ item :=
      fun item hi => parse_out_no_comma x item ((henum item).mp hi)
    have htrim : ∀ item ∈ enum, trim item = item :=
      fun item hi => parse_out_trimmed x item ((henum item).mp hi)
    rw [mem_parse_of_normalized enum hcomma htrim y]
    exact henum y
  · intro x y hperm
    apply Finset.ext
    intro z
    rw [mem_parse_repos, mem_parse_repos]
    constructor
    · rintro ⟨item, hi, hrest⟩
      exact ⟨item, hperm.mem_iff.mp hi, hrest⟩
    · rintro ⟨item, hi, hrest⟩
      exact ⟨item, hperm.mem_iff.mpr hi, hrest⟩
  · intro x s hs
    exact parse_out_trimmed x s hs

/-- Witness for C2: idempotence applied to a concrete normalized set and
order-independence applied to a concrete permutation. -/
theorem C2_signature_normalization_witness :
    parse_repos_to_set [['a']] = parse_repos_to_set [['a', ',', 'a'], [' ', 'a']] ∧
    parse_repos_to_set [['b'], ['a']] = parse_repos_to_set [['a'], ['b']] := by
  constructor
  · apply C2_signature_normalization.1
    intro s
    rw [show parse_repos_to_set [['a', ',', 'a'], [' ', 'a']] = {['a']} from by decide]
    simp
  · exact C2_signature_normalization.2.1 _ _ (List.Perm.swap ['a'] ['b'] [])

/-- Counterexample to C3: with source history `DEV@1, STG@2, DEV@3` and a
target already holding one `DEV` record, the replay list is
`[DEV@3, STG@2]`, whose timestamps `[3, 2]` are not ascending. -/
theorem C3_counterexample :
    promotionsToSync [eDev1, eStg, eDev2] [tDevOld] = [eDev2, eStg] ∧
    ¬ List.Pairwise (fun a b => sortKey a ≤ sortKey b)
        (promotionsToSync [eDev1, eStg, eDev2] [tDevOld]) := by
  refine ⟨by decide, by decide⟩

/-- C3 as amended: when no two source records share a signature (and the
source history is ascending, as the fetcher guarantees), the replay list
is ascending by `created_millis`; with repeated signatures it need not
be. -/
theorem C3_replay_order_nodup (src tgt : List AuditEvent)
    (hn : (src.map get_promo_signature).Nodup)
    (hs : List.Pairwise (fun a b => sortKey a ≤ sortKey b) src) :
    List.Pairwise (fun a b => sortKey a ≤ sortKey b) (promotionsToSync src tgt) := by
  rw [promotionsToSync_of_nodup_sigs src tgt hn]
  exact hs.sublist (List.filter_sublist src)

/-- Witness for the amended C3 at a concrete two-signature history. -/
theorem C3_replay_order_nodup_witness :
    List.Pairwise (fun a b => sortKey a ≤ sortKey b) (promotionsToSync [eDev1, eStg] []) :=
  C3_replay_order_nodup [eDev1, eStg] [] (by decide) (by decide)

/-- Counterexample to C4: with two `DEV` promotions on the source and an
empty target (deficit 2), the reconciler replays the most recent record
twice — the selected records are not distinct and the older matching
record is never selected. -/
theorem C4_counterexample :
    promotionsToSync [eDev1, eDev2] [] = [eDev2, eDev2] ∧
    ¬ (promotionsToSync [eDev1, eDev2] []).Nodup ∧
    eDev1 ∉ promotionsToSync [eDev1, eDev2] [] := by
  refine ⟨by decide, by decide, by decide⟩

/-- C4 as amended: for every signature with positive deficit `d`, the
reconciler deterministically selects the single most recently created
matching source record and replays it `d` times. -/
theorem C4_selection_most_recent (src tgt : List AuditEvent) (s : Sig)
    (hs : List.Pairwise (fun a b => sortKey a ≤ sortKey b) src)
    (hmem : s ∈ src.map get_promo_signature)
    (hd : sigCount s tgt < sigCount s src) :
    ∃ p, p ∈ src ∧ get_promo_signature p = s ∧
      (∀ q ∈ src, get_promo_signature q = s → sortKey q ≤ sortKey p) ∧
      (promotionsToSync src tgt).filter (fun q => decide (get_promo_signature q = s)) =
        List.replicate (sigCount s src - sigCount s tgt) p := by
  rcases hfind : src.reverse.find? (fun p => decide (get_promo_signature p = s)) with _ | p
  · exfalso
    rcases List.mem_map.mp hmem with ⟨q, hq, hqs⟩
    have := List.find?_eq_none.mp hfind q (List.mem_reverse.mpr hq)
    simp [hqs] at this
  · have hps : get_promo_signature p = s := by
      have := List.find?_some hfind
      simpa using this
    have hpmem : p ∈ src := List.mem_reverse.mp (List.mem_of_find?_eq_some hfind)
    rcases find?_reverse_split _ src p hfind with ⟨l1, l2, heq, hl2⟩
    refine ⟨p, hpmem, hps, ?_, ?_⟩
    · intro q hq hqs
      rw [heq] at hq hs
      rcases List.mem_append.mp hq with hq1 | hq2
      · exact (List.pairwise_append.mp hs).2.2 q hq1 p (List.mem_cons_self _ _)
      · rcases List.mem_cons.mp hq2 with rfl | hq2
        · exact le_refl _
        · have := hl2 q hq2
          simp [hqs] at this
    · rw [promotionsToSync, filter_flatten_map]
      rw [flatten_map_single _ s _ (nodup_counterKeys _)
        ((mem_counterKeys s _).mpr hmem) ?hz]
      case hz =>
        intro t ht hts
        rw [List.filter_eq_nil_iff]
        intro q hq
        split_ifs at hq with hcond
        · have := selectForSig_sig src t _ q hq
          simp only [decide_eq_true_iff]
          exact fun hqs => hts ((hqs ▸ this).symm ▸ rfl)
        · simp at hq
      rw [if_pos hd, selectForSig, hfind]
      exact filter_replicate_pos _ _ p (by simp [hps])

/-- Witness for the amended C4 at a concrete repeated-signature history. -/
theorem C4_selection_most_recent_witness :
    ∃ p, p ∈ [eDev1, eDev2] ∧ get_promo_signature p = get_promo_signature eDev1 ∧
      (∀ q ∈ [eDev1, eDev2], get_promo_signature q = get_promo_signature eDev1 →
        sortKey q ≤ sortKey p) ∧
      (promotionsToSync [eDev1, eDev2] []).filter
          (fun q => decide (get_promo_signature q = get_promo_signature eDev1)) =
        List.replicate
          (sigCount (get_promo_signature eDev1) [eDev1, eDev2] -
            sigCount (get_promo_signature eDev1) []) p :=
  C4_selection_most_recent [eDev1, eDev2] [] (get_promo_signature eDev1)
    (by decide) (by decide) (by decide)

/-- Counterexample to C5: a `FED-` referenced completed promotion is
returned by the sweep history fetcher. -/
theorem C5_counterexample :
    fedEvent ∈ get_release_bundle_audit_history [fedEvent] ∧
    hasFedTag (subjRef fedEvent) = true := by
  refine ⟨by decide, by decide⟩

/-- C5 as amended: the sweep fetcher returns exactly the records with
promotion kind and completed status (no federated-mirror exclusion),
while the event-triggered driver considers exactly the records with
promotion kind and a non-`FED-` reference (no status check). -/
theorem C5_eligibility (audits : List AuditEvent) (e : AuditEvent) :
    (e ∈ get_release_bundle_audit_history audits ↔
      e ∈ audits ∧ e.subject_type = some "PROMOTION" ∧
        e.event_status = some "COMPLETED") ∧
    (e ∈ eligibleEvents audits ↔
      e ∈ audits ∧ e.subject_type = some "PROMOTION" ∧
        hasFedTag (subjRef e) = false) := by
  constructor
  · rw [get_release_bundle_audit_history, mem_stableSortByKey, List.mem_filter,
      isCompletedPromotion]
    simp [and_assoc]
  · rw [eligibleEvents, List.mem_filter, isEligibleEventPromotion]
    simp [and_assoc]

/-- C6: evaluating the `existingpromotions` pipeline with environment
filter `PROD` on a source holding only a `DEV` promotion: the record is
replayed even though its environment differs from the filter (the parsed
filter is never consulted).  The sibling top-level script does honor the
filter: everything it selects matches a non-empty filter value. -/
theorem C6_env_filter_discrepancy :
    (promotionsToSyncEP "PROD" [eDev1] [] = [eDev1] ∧
      eDev1.context.environment = some "DEV") ∧
    (∀ E : String, ∀ src tgt : List AuditEvent, E ≠ "" →
      ∀ p ∈ selectMissing E src tgt, p.context.environment = some E) := by
  refine ⟨⟨by decide, by decide⟩, ?_⟩
  intro E src tgt hE p hp
  rw [selectMissing, List.mem_filter] at hp
  rcases hp with ⟨hmem, hcond⟩
  rcases henv : p.context.environment with _ | env
  · rw [henv] at hcond
    simp at hcond
  · rw [henv] at hcond
    have hcond2 : (if E ≠ "" ∧ env ≠ E then false
        else !tgt.any fun t => decide (tupleSig t = tupleSig p)) = true := hcond
    by_cases he : env = E
    · rw [he]
    · rw [if_pos ⟨hE, he⟩] at hcond2
      exact absurd hcond2 (by simp)

/-- Witness for C6's filter-correctness half at a concrete selection. -/
theorem C6_env_filter_discrepancy_witness :
    eProd.context.environment = some "PROD" :=
  C6_env_filter_discrepancy.2 "PROD" [eProd, eDev1] [] (by decide) eProd (by decide)

/-- Counterexample to C7: after the actuator fails on the first record,
the second record of the same replay list is still attempted (and
succeeds), and the sweep run's exit status is 0 despite the failure. -/
theorem C7_counterexample :
    runReplays (fun p => decide (p = eStg)) [eDev1, eStg] =
      [(eDev1, false), (eStg, true)] ∧
    sweepExitCode 1 = 0 := by
  refine ⟨by decide, rfl⟩

/-- C7 as amended: an actuation failure does not abort the identity's
remaining replays, whatever the actuator answers — in the top-level
script every record whose environment is present is attempted exactly
once, in order, and in `existingpromotions` every record whose
environment is present and non-empty is attempted exactly once, in
order (its `if not target_env_for_promo:` guard also skips empty-string
environments) — and the sweep run's exit status is 0 regardless of how
many actuations failed. -/
theorem C7_continue_on_failure (actuate : AuditEvent → Bool)
    (replays : List AuditEvent) :
    ((runReplays actuate replays).map Prod.fst =
      replays.filter (fun p => p.context.environment.isSome)) ∧
    ((runReplaysEP actuate replays).map Prod.fst =
      replays.filter (fun p =>
        match p.context.environment with
        | none => false
        | some env => decide (env ≠ ""))) ∧
    sweepExitCode ((runReplays actuate replays).countP (fun r => !r.2)) = 0 := by
  refine ⟨?_, ?_, rfl⟩
  · induction replays with
    | nil => rfl
    | cons p rest ih =>
      rcases h : p.context.environment with _ | env
      · simp [runReplays, h, ih, List.filter_cons]
      · simp [runReplays, h, ih, List.filter_cons]
  · induction replays with
    | nil => rfl
    | cons p rest ih =>
      rcases h : p.context.environment with _ | env
      · simp [runReplaysEP, h, ih, List.filter_cons]
      · by_cases he : env = ""
        · simp [runReplaysEP, h, he, ih, List.filter_cons]
        · simp [runReplaysEP, h, he, ih, List.filter_cons]

/-- Counterexample to C8: the event-triggered driver exits with status 1
when the alignment request fails (instead of treating it as a warning),
and a non-numeric original timestamp does not skip alignment — the
request is still issued, with the unincremented original value. -/
theorem C8_counterexample :
    eventAlignExit none = 1 ∧ eventAlignExit (some ()) = 0 ∧
    sweepAlignmentRequested (PyVal.pystr ['a', 'b', 'c']) = true ∧
    pyToInt (PyVal.pystr ['a', 'b', 'c']) = none ∧
    incrementedMillis (PyVal.pystr ['a', 'b', 'c']) = PyVal.pystr ['a', 'b', 'c'] := by
  refine ⟨rfl, rfl, by decide, by decide, by decide⟩

/-- C8 as amended: a numeric original timestamp is rewritten to
`original + 1`; a missing original skips the sweep alignment; a
non-numeric original leaves the requested value unincremented (the
request still happens); and the event-triggered driver exits 1 exactly
when the alignment response is missing. -/
theorem C8_alignment_behavior :
    (∀ n : Int, incrementedMillis (PyVal.pyint n) = PyVal.pyint (n + 1)) ∧
    sweepAlignmentRequested PyVal.pynone = false ∧
    (∀ s : Str, pyToInt (PyVal.pystr s) = none →
      incrementedMillis (PyVal.pystr s) = PyVal.pystr s) ∧
    eventAlignExit none = 1 ∧
    (∀ r : Option Unit, r ≠ none → eventAlignExit r = 0) := by
  refine ⟨fun n => rfl, by decide, ?_, rfl, ?_⟩
  · intro s hs
    rw [incrementedMillis, hs]
  · rintro (_ | r) h
    · exact absurd rfl h
    · rfl

/-- Witness for C8's hypothesis-bearing conjuncts at concrete values. -/
theorem C8_alignment_behavior_witness :
    incrementedMillis (PyVal.pystr ['x']) = PyVal.pystr ['x'] ∧
    eventAlignExit (some ()) = 0 :=
  ⟨C8_alignment_behavior.2.2.1 ['x'] (by decide),
   C8_alignment_behavior.2.2.2.2 (some ()) (by simp)⟩

/-- C9: when the triggering origin differs from the configured primary
source, the event-triggered driver performs zero fetches and exits with
status 0, whatever the rest of the run would have done. -/
theorem C9_origin_guard (jpd_origin primary_source_url : String)
    (proceed : EventRunResult) (h : jpd_origin ≠ primary_source_url) :
    runEventDriver jpd_origin primary_source_url proceed = ⟨0, 0⟩ := by
  rw [runEventDriver, if_pos h]

/-- Witness for C9 at concrete distinct endpoints. -/
theorem C9_origin_guard_witness :
    runEventDriver "https://jpd2.example" "https://jpd1.example" ⟨1, 5⟩ = ⟨0, 0⟩ :=
  C9_origin_guard _ _ _ (by decide)

/-- C10: a record lacking `created_millis` sorts with key 0 (hence before
every positive-timestamp record), the fetched history is ascending by
that key, and the sort is stable: for every key value, the records with
that key appear in their original discovery order. -/
theorem C10_missing_timestamp_sort (audits : List AuditEvent) :
    (∀ e : AuditEvent, e.created_millis = none → sortKey e = 0) ∧
    List.Pairwise (fun a b => sortKey a ≤ sortKey b)
      (get_release_bundle_audit_history audits) ∧
    List.Pairwise (fun a b => 0 < sortKey a → b.created_millis ≠ none)
      (get_release_bundle_audit_history audits) ∧
    (∀ k : Int,
      (get_release_bundle_audit_history audits).filter (fun e => decide (sortKey e = k)) =
        (audits.filter isCompletedPromotion).filter (fun e => decide (sortKey e = k))) := by
  refine ⟨?_, ?_, ?_, ?_⟩
  · intro e he
    rw [sortKey, he]
    rfl
  · exact pairwise_stableSortByKey sortKey (audits.filter isCompletedPromotion)
  · refine (pairwise_stableSortByKey sortKey (audits.filter isCompletedPromotion)).imp ?_
    intro a b hab hpos hbnone
    have hb : sortKey b = 0 := by rw [sortKey, hbnone]; rfl
    omega
  · intro k
    exact filter_stableSortByKey sortKey k (audits.filter isCompletedPromotion)

/-- Witness for C10's hypothesis-bearing conjunct at a record with no
timestamp. -/
theorem C10_missing_timestamp_sort_witness :
    sortKey eNoTs = 0 ∧
    (get_release_bundle_audit_history [eDev2, eNoTs, eDev1]).filter
        (fun e => decide (sortKey e = 0)) =
      ([eDev2, eNoTs, eDev1].filter isCompletedPromotion).filter
        (fun e => decide (sortKey e = 0)) :=
  ⟨(C10_missing_timestamp_sort []).1 eNoTs rfl,
   (C10_missing_timestamp_sort [eDev2, eNoTs, eDev1]).2.2.2 0⟩

